import Mathlib

/-!
Verification of the markdown outline extraction engine of `src/programa.py`
(class `Menu`).  Lines are modelled as lists of characters; the document is a
list of lines, exactly as produced by `read_text().splitlines()`.  Each
Python helper is translated into an executable Lean function; Python's
regular-expression and `unicodedata` behaviour is modelled explicitly where
the code relies on it.
-/

namespace Aurelion

/-- A document line, as produced by `splitlines()` (no newline characters). -/
abbrev Line := List Char

/-- Coerce a Lean string literal to a `Line`. -/
def str (s : String) : Line := s.data

/-- Whitespace as matched by Python's regex class and by `str.strip()`
restricted to the ASCII range (space, tab, newline, carriage return,
vertical tab, form feed). -/
def isWs (c : Char) : Bool :=
  c = ' ' || c = '\t' || c = '\n' || c = '\r' || c = Char.ofNat 11 || c = Char.ofNat 12

/-- Python `s.strip()`: drop whitespace from both ends. -/
def pyStrip (l : Line) : Line :=
  ((l.dropWhile isWs).reverse.dropWhile isWs).reverse

/-- Python `str.lower()` on the alphabet used by the program: ASCII letters
together with the Latin-1 accented capitals (so that for instance capital
i-acute lowers to i-acute). -/
def pyLowerChar (c : Char) : Char :=
  if 'A' ≤ c ∧ c ≤ 'Z' then Char.ofNat (c.toNat + 32)
  else if 0xC0 ≤ c.toNat ∧ c.toNat ≤ 0xDE ∧ c.toNat ≠ 0xD7 then Char.ofNat (c.toNat + 32)
  else c

/-- Python `s.lower()` applied to a whole line. -/
def pyLower (l : Line) : Line := l.map pyLowerChar

/-- True when `p` occurs at the start of `l`. -/
def headMatch : Line → Line → Bool
  | [], _ => true
  | _ :: _, [] => false
  | a :: p, b :: l => a = b && headMatch p l

/-- Python's substring test `p in l`: `p` occurs contiguously inside `l`. -/
def pyIn (p : Line) : Line → Bool
  | [] => p.isEmpty
  | c :: l => headMatch p (c :: l) || pyIn p l

/-- Python `"sep".join`: interleave a newline between the lines. -/
def joinNL : List Line → Line
  | [] => []
  | [l] => l
  | l :: ls => l ++ '\n' :: joinNL ls

/-- Python slice `lines[a:b]`. -/
def pySlice (l : List Line) (a b : Nat) : List Line :=
  (l.drop a).take (b - a)

/-- One entry of the heading index: `(line position, level, title)` exactly as
built by `Menu.parse_headings`. -/
structure Heading where
  pos : Nat
  level : Nat
  title : Line
  deriving DecidableEq, Repr

/-- Number of leading hash characters of a line. -/
def hashCount : Line → Nat
  | [] => 0
  | c :: l => if c = '#' then hashCount l + 1 else 0

/-- Backtracking search of the regex engine for `^(#{1,6})\s*(.+)$`: try to
give the first group `j` hashes, largest first; the match succeeds as soon as
the remainder of the line is non-empty (`\s*` then backtracks so that `(.+)`
can take at least one character, which makes the stripped second group equal
to the stripped remainder). -/
def tryHash (s : Line) : Nat → Option (Nat × Line)
  | 0 => none
  | j + 1 =>
    if s.drop (j + 1) ≠ [] then some (j + 1, pyStrip (s.drop (j + 1)))
    else tryHash s j

/-- Result of `re.match(r'^(#\x7b1,6\x7d)\s*(.+)$', ln)` in
`Menu.parse_headings`: `some (level, stripped title)` on a match. -/
def matchHeading (s : Line) : Option (Nat × Line) :=
  tryHash s (min (hashCount s) 6)

/-- The enumerate loop of `Menu.parse_headings`, carrying the line number. -/
def parse_from : Nat → List Line → List Heading
  | _, [] => []
  | k, ln :: rest =>
    match matchHeading ln with
    | some (lv, t) => ⟨k, lv, t⟩ :: parse_from (k + 1) rest
    | none => parse_from (k + 1) rest

/-- `Menu.parse_headings(lines)`: the ordered heading index. -/
def parse_headings (lines : List Line) : List Heading :=
  parse_from 0 lines

/-- A line skipped by the regex of `Menu.all_paragraphs`
(one to six hashes then arbitrary whitespace, anchored at the start only):
it matches exactly the lines whose first character is a hash. -/
def headingSkip : Line → Bool
  | [] => false
  | c :: _ => c = '#'

/-- The accumulation loop of `Menu.all_paragraphs`: `buf` is the buffer of
pending non-blank lines; a blank line flushes it, heading-like lines are
skipped without flushing, and a trailing buffer is flushed at the end. -/
def all_paragraphs_go : List Line → List Line → List Line
  | buf, [] => if buf.isEmpty then [] else [pyStrip (joinNL buf)]
  | buf, ln :: rest =>
    if headingSkip ln then all_paragraphs_go buf rest
    else if pyStrip ln = [] then
      if buf.isEmpty then all_paragraphs_go [] rest
      else pyStrip (joinNL buf) :: all_paragraphs_go [] rest
    else all_paragraphs_go (buf ++ [ln]) rest

/-- `Menu.all_paragraphs(lines)`. -/
def all_paragraphs (lines : List Line) : List Line :=
  all_paragraphs_go [] lines

/-- The match test of `Menu.get_section`:
`title_search.lower() in title.lower()`. -/
def titleMatch (q : Line) (h : Heading) : Bool :=
  pyIn (pyLower q) (pyLower h.title)

/-- The boundary computed by `Menu.get_section`: position of the first
heading after the anchor with level less than or equal to the anchor's,
defaulting to the document length. -/
def get_sectionRange (lines : List Line) (q : Line) : Option (Nat × Nat) :=
  let hs := parse_headings lines
  match hs.find? (titleMatch q) with
  | none => none
  | some h =>
    let e := match hs.find? (fun h2 => decide (h.pos < h2.pos ∧ h2.level ≤ h.level)) with
      | some h2 => h2.pos
      | none => lines.length
    some (h.pos + 1, e)

/-- `Menu.get_section(lines, title_search)`: the slice `lines[start:end]` on a
match, the empty list when no heading title contains the query. -/
def get_section (lines : List Line) (q : Line) : List Line :=
  match get_sectionRange lines q with
  | none => []
  | some (s, e) => pySlice lines s e

/-- A fence line of `Menu.extract_code_block`:
`ln.strip().startswith("```")`. -/
def fenceLine (l : Line) : Bool :=
  headMatch (str "```") (pyStrip l)

/-- The toggle loop of `Menu.extract_code_block`: fence lines flip the flag
and are dropped; other lines are kept exactly while the flag is set. -/
def extract_go : Bool → List Line → List Line
  | _, [] => []
  | inside, ln :: rest =>
    if fenceLine ln then extract_go (!inside) rest
    else if inside then ln :: extract_go inside rest
    else extract_go inside rest

/-- `Menu.extract_code_block(lines)`. -/
def extract_code_block (lines : List Line) : Line :=
  pyStrip (joinNL (extract_go false lines))

/-- Canonical (NFD) decomposition of `unicodedata.normalize` modelled on the
alphabet the program manipulates: the Spanish accented letters decompose into
their base letter followed by a combining mark; every other character is its
own decomposition. -/
def nfdChar (c : Char) : List Char :=
  if c = 'á' then ['a', Char.ofNat 0x301]
  else if c = 'é' then ['e', Char.ofNat 0x301]
  else if c = 'í' then ['i', Char.ofNat 0x301]
  else if c = 'ó' then ['o', Char.ofNat 0x301]
  else if c = 'ú' then ['u', Char.ofNat 0x301]
  else if c = 'Á' then ['A', Char.ofNat 0x301]
  else if c = 'É' then ['E', Char.ofNat 0x301]
  else if c = 'Í' then ['I', Char.ofNat 0x301]
  else if c = 'Ó' then ['O', Char.ofNat 0x301]
  else if c = 'Ú' then ['U', Char.ofNat 0x301]
  else if c = 'ñ' then ['n', Char.ofNat 0x303]
  else if c = 'Ñ' then ['N', Char.ofNat 0x303]
  else if c = 'ü' then ['u', Char.ofNat 0x308]
  else if c = 'Ü' then ['U', Char.ofNat 0x308]
  else [c]

/-- The combining diacritical marks block, Unicode category Mn for every
character this model can produce (`unicodedata.category(c) == 'Mn'`). -/
def isMn (c : Char) : Bool :=
  decide (0x300 ≤ c.toNat ∧ c.toNat ≤ 0x36F)

/-- The helper `_norm` defined (three times, identically) inside
`Menu.dataset`, `Menu.pseudocodigo_diagrama` and `Menu.sugerencias_copilot`:
NFD-decompose, remove the combining marks, lower-case. -/
def _norm (l : Line) : Line :=
  ((l.flatMap nfdChar).filter (fun c => !isMn c)).map pyLowerChar

/-- Start predicate of `Menu.dataset` choice a: level-2 heading whose
normalized title contains both search fragments. -/
def dsPred (h : Heading) : Bool :=
  decide (h.level = 2) && pyIn (str "dataset") (_norm h.title)
    && pyIn (str "referenc") (_norm h.title)

/-- Predicate for the level-3 heading of `Menu.dataset`. -/
def tablaPred (h : Heading) : Bool :=
  decide (h.level = 3) && pyIn (str "tabla") (_norm h.title)
    && pyIn (str "clientes") (_norm h.title)

/-- End predicate of `Menu.dataset` choice b. -/
def progPred (h : Heading) : Bool :=
  decide (h.level = 2) && pyIn (str "programa") (_norm h.title)
    && pyIn (str "interact") (_norm h.title)

/-- The single scanning loop of `Menu.dataset`: walk the heading index once,
recording the first position satisfying each of the two predicates (each slot
is written only while it is still unset). -/
def scanPair (p q : Heading → Bool) : List Heading → Option Nat × Option Nat → Option Nat × Option Nat
  | [], acc => acc
  | h :: rest, (a, b) =>
    scanPair p q rest
      (if a.isNone && p h then some h.pos else a,
       if b.isNone && q h then some h.pos else b)

/-- Failure reasons for range resolution. -/
inductive NotFoundReason where
  | start_missing
  | end_missing
  deriving DecidableEq, Repr

/-- The two end-boundary policies appearing in `Menu.dataset`: choice a fails
when no valid end heading exists, choice b falls back to the document
length. -/
inductive EndFallback where
  | fail
  | to_end
  deriving DecidableEq, Repr

/-- The spec's `find_range`, the common generalization of the two branches of
`Menu.dataset`: one scan finds the first heading satisfying each predicate;
no start match fails with `start_missing`; an end match is used only when it
lies strictly after the start (choice b additionally requires truthiness of
the end index, i.e. that it is non-zero), and otherwise the policy decides
between failing with `end_missing` and falling back to the document
length. -/
def find_range (lines : List Line) (sp ep : Heading → Bool) (fb : EndFallback) :
    Except NotFoundReason (Nat × Nat) :=
  let hs := parse_headings lines
  match scanPair sp ep hs (none, none) with
  | (none, _) => .error .start_missing
  | (some s, eIdx) =>
    match fb with
    | .fail =>
      match eIdx with
      | none => .error .end_missing
      | some e => if e ≤ s then .error .end_missing else .ok (s, e)
    | .to_end =>
      .ok (s, match eIdx with
              | some e => if e ≠ 0 ∧ s < e then e else lines.length
              | none => lines.length)

/-- Choice a of `Menu.dataset` (resumen): from the dataset heading up to the
first `tabla clientes` heading, failing when the latter is missing or not
strictly after the former. -/
def dataset_resumen (lines : List Line) : Except NotFoundReason (Nat × Nat) :=
  let hs := parse_headings lines
  match scanPair dsPred tablaPred hs (none, none) with
  | (none, _) => .error .start_missing
  | (some _, none) => .error .end_missing
  | (some d, some t) => if t ≤ d then .error .end_missing else .ok (d, t)

/-- Choice b of `Menu.dataset` (detalle): from the `tabla clientes` heading up
to the first `programa interactivo` heading if that is truthy and strictly
after it, else to the end of the document. -/
def dataset_detalle (lines : List Line) : Except NotFoundReason (Nat × Nat) :=
  let hs := parse_headings lines
  match scanPair tablaPred progPred hs (none, none) with
  | (none, _) => .error .start_missing
  | (some t, pIdx) =>
    .ok (t, match pIdx with
            | some p => if p ≠ 0 ∧ t < p then p else lines.length
            | none => lines.length)

/-- Inner loop of the subsection collection in `Menu.sugerencias_copilot`:
the end of the subsection anchored at `idx` with level `level` is the first
heading strictly after it, before `e`, of level at most `level`; default
`e`. -/
def subEnd (hs : List Heading) (idx level e : Nat) : Nat :=
  match hs.find? (fun h2 => decide (idx < h2.pos ∧ h2.pos < e ∧ h2.level ≤ level)) with
  | some h2 => h2.pos
  | none => e

/-- Outer loop of the subsection collection in `Menu.sugerencias_copilot`:
headings outside `[s, e)` are skipped; each heading whose level belongs to
`levels` contributes the range from its position to its own nesting
boundary. -/
def collectSubs (allH : List Heading) (s e : Nat) (levels : List Nat) :
    List Heading → List (Nat × Nat)
  | [] => []
  | h :: rest =>
    if h.pos < s ∨ e ≤ h.pos then collectSubs allH s e levels rest
    else if levels.contains h.level then
      (h.pos, subEnd allH h.pos h.level e) :: collectSubs allH s e levels rest
    else collectSubs allH s e levels rest

/-- The spec's `partition_subsections`, as implemented by the subsection
block of `Menu.sugerencias_copilot` (there with `levels = [2, 3]`): the
collected subsection ranges, or the whole outer range when none were
collected. -/
def partition_subsections (lines : List Line) (s e : Nat) (levels : List Nat) :
    List (Nat × Nat) :=
  let hs := parse_headings lines
  let secs := collectSubs hs s e levels hs
  if secs.isEmpty then [(s, e)] else secs

/-- Explicit description of the regex match of `Menu.parse_headings` used by
the amended claim C1: a line matches exactly when it starts with a hash and
has at least two characters; a line made of two to six hashes only yields a
level one below its hash count with title a single hash (the regex backtracks
one hash into the text group); any other matching line yields level
`min(hash count, 6)` and the stripped remainder as title. -/
def amendedParse (l : Line) : Option (Nat × Line) :=
  if hashCount l = 0 ∨ l.length < 2 then none
  else if hashCount l = l.length ∧ hashCount l ≤ 6 then some (hashCount l - 1, ['#'])
  else some (min (hashCount l) 6, pyStrip (l.drop (min (hashCount l) 6)))

/-- The heading-line pattern exactly as claim C1 states it: one to six hash
characters, then whitespace, then text (a non-blank trimmed remainder). -/
def claimATX (l : Line) : Bool :=
  decide (1 ≤ hashCount l) && decide (hashCount l ≤ 6) &&
    (match (l.drop (hashCount l)).head? with
     | some c => isWs c
     | none => false) &&
    decide (pyStrip (l.drop (hashCount l)) ≠ [])

/-- Position of the first heading in document order satisfying `p`, stated
declaratively as the spec does: it satisfies `p` and no heading at a smaller
position does. -/
def IsFirstHeading (lines : List Line) (p : Heading → Bool) (x : Nat) : Prop :=
  ∃ h ∈ parse_headings lines, h.pos = x ∧ p h = true ∧
    ∀ h2 ∈ parse_headings lines, p h2 = true → x ≤ h2.pos

instance (lines : List Line) (p : Heading → Bool) (x : Nat) :
    Decidable (IsFirstHeading lines p x) := by
  unfold IsFirstHeading
  infer_instance

/-- Position of the first heading strictly after `s` satisfying `p`: the end
boundary exactly as claim C3 describes it. -/
def firstAfter (lines : List Line) (s : Nat) (p : Heading → Bool) : Option Nat :=
  ((parse_headings lines).find? (fun h => decide (s < h.pos) && p h)).map Heading.pos

/-- Headings of the given levels lying strictly inside the outer range (the
literal reading of claim C6: strictly within, so excluding the range start). -/
def strictlyInnerHeadings (lines : List Line) (s e : Nat) (levels : List Nat) : List Heading :=
  (parse_headings lines).filter
    (fun h => decide (s < h.pos ∧ h.pos < e) && levels.contains h.level)

/-- Headings of the given levels at any position of the half-open outer
range, including its start: the positions the code actually collects. -/
def innerHeadings (lines : List Line) (s e : Nat) (levels : List Nat) : List Heading :=
  (parse_headings lines).filter
    (fun h => decide (s ≤ h.pos ∧ h.pos < e) && levels.contains h.level)

/-- A blank line in the sense of the code: it strips to nothing. -/
def Blank (l : Line) : Bool := decide (pyStrip l = [])

/-- Newline-join a run of lines and trim the result (the flush operation of
`Menu.all_paragraphs`). -/
def glue (run : List Line) : Line := pyStrip (joinNL run)

/-- Paragraphs exactly as claim C7 describes them: one entry per maximal run
of non-blank, non-heading lines, so a run is broken by blank lines and by
heading lines alike. -/
def claimParagraphs (lines : List Line) : List Line :=
  ((lines.splitOnP (fun l => Blank l || headingSkip l)).filter (fun r => !r.isEmpty)).map glue

/-- Paragraphs as the code computes them: heading lines are deleted first
(without breaking a run), and the remaining lines are split into maximal
non-blank runs. -/
def paragraphsSpec (lines : List Line) : List Line :=
  (((lines.filter (fun l => !headingSkip l)).splitOnP Blank).filter (fun r => !r.isEmpty)).map glue

/-- Alternating collection of the chunks between fence lines: chunks in
odd positions (those opened by a fence) are kept, the others dropped.  This
is the declarative content of the toggle loop. -/
def altJoin : Bool → List (List Line) → List Line
  | _, [] => []
  | b, c :: cs => (if b then c else []) ++ altJoin (!b) cs

/-- Base letter of each character of the modelled alphabet: the accented
letters map to their unaccented base, every other character to itself. -/
def baseChar (c : Char) : Char :=
  if c = 'á' then 'a'
  else if c = 'é' then 'e'
  else if c = 'í' then 'i'
  else if c = 'ó' then 'o'
  else if c = 'ú' then 'u'
  else if c = 'Á' then 'A'
  else if c = 'É' then 'E'
  else if c = 'Í' then 'I'
  else if c = 'Ó' then 'O'
  else if c = 'Ú' then 'U'
  else if c = 'ñ' then 'n'
  else if c = 'Ñ' then 'N'
  else if c = 'ü' then 'u'
  else if c = 'Ü' then 'U'
  else c

/-! Lemmas and claim theorems. -/

theorem parse_from_cons_some {k : Nat} {ln : Line} {rest : List Line} {lv : Nat} {t : Line}
    (hm : matchHeading ln = some (lv, t)) :
    parse_from k (ln :: rest) = ⟨k, lv, t⟩ :: parse_from (k + 1) rest := by
  simp only [parse_from, hm]

theorem parse_from_cons_none {k : Nat} {ln : Line} {rest : List Line}
    (hm : matchHeading ln = none) :
    parse_from k (ln :: rest) = parse_from (k + 1) rest := by
  simp only [parse_from, hm]

theorem parse_from_ge {k : Nat} {l : List Line} : ∀ h ∈ parse_from k l, k ≤ h.pos := by
  induction l generalizing k with
  | nil => simp [parse_from]
  | cons ln rest ih =>
    intro h hmem
    rcases hm : matchHeading ln with _ | ⟨lv, t⟩
    · rw [parse_from_cons_none hm] at hmem
      exact Nat.le_of_succ_le (ih (k := k + 1) h hmem)
    · rw [parse_from_cons_some hm] at hmem
      rcases List.mem_cons.1 hmem with rfl | hmem
      · exact Nat.le_refl k
      · exact Nat.le_of_succ_le (ih (k := k + 1) h hmem)

theorem parse_from_lt {k : Nat} {l : List Line} : ∀ h ∈ parse_from k l, h.pos < k + l.length := by
  induction l generalizing k with
  | nil => simp [parse_from]
  | cons ln rest ih =>
    intro h hmem
    rcases hm : matchHeading ln with _ | ⟨lv, t⟩
    · rw [parse_from_cons_none hm] at hmem
      have := ih (k := k + 1) h hmem
      simp only [List.length_cons]
      omega
    · rw [parse_from_cons_some hm] at hmem
      rcases List.mem_cons.1 hmem with rfl | hmem
      · simp
      · have := ih (k := k + 1) h hmem
        simp only [List.length_cons]
        omega

theorem parse_from_sorted (k : Nat) (l : List Line) :
    (parse_from k l).Pairwise (fun a b => a.pos < b.pos) := by
  induction l generalizing k with
  | nil => simp [parse_from]
  | cons ln rest ih =>
    rcases hm : matchHeading ln with _ | ⟨lv, t⟩
    · rw [parse_from_cons_none hm]
      exact ih (k + 1)
    · rw [parse_from_cons_some hm]
      refine List.Pairwise.cons ?_ (ih (k + 1))
      intro h2 hmem
      exact Nat.lt_of_succ_le (parse_from_ge h2 hmem)

theorem parse_headings_sorted (lines : List Line) :
    (parse_headings lines).Pairwise (fun a b => a.pos < b.pos) :=
  parse_from_sorted 0 lines

theorem parse_headings_lt (lines : List Line) :
    ∀ h ∈ parse_headings lines, h.pos < lines.length := by
  intro h hmem
  simpa using parse_from_lt h hmem

theorem mem_parse_from {k : Nat} {l : List Line} {h : Heading} :
    h ∈ parse_from k l ↔
      ∃ i ln, l[i]? = some ln ∧ h.pos = k + i ∧ matchHeading ln = some (h.level, h.title) := by
  induction l generalizing k with
  | nil => simp [parse_from]
  | cons ln0 rest ih =>
    rcases hm : matchHeading ln0 with _ | ⟨lv, t⟩
    · rw [parse_from_cons_none hm, ih]
      constructor
      · rintro ⟨i, ln, hget, hpos, hmt⟩
        exact ⟨i + 1, ln, by simpa using hget, by omega, hmt⟩
      · rintro ⟨i, ln, hget, hpos, hmt⟩
        match i with
        | 0 =>
          simp at hget
          subst hget
          rw [hm] at hmt
          exact absurd hmt (by simp)
        | i + 1 =>
          exact ⟨i, ln, by simpa using hget, by omega, hmt⟩
    · rw [parse_from_cons_some hm]
      constructor
      · intro hmem
        rcases List.mem_cons.1 hmem with rfl | hmem
        · exact ⟨0, ln0, by simp, by simp, hm⟩
        · rcases ih.1 hmem with ⟨i, ln, hget, hpos, hmt⟩
          exact ⟨i + 1, ln, by simpa using hget, by omega, hmt⟩
      · rintro ⟨i, ln, hget, hpos, hmt⟩
        match i with
        | 0 =>
          simp at hget
          subst hget
          rw [hm] at hmt
          simp only [Option.some.injEq, Prod.mk.injEq] at hmt
          have heq : h = ⟨k, lv, t⟩ := by
            cases h
            simp_all
          rw [heq]
          exact List.mem_cons_self _ _
        | i + 1 =>
          exact List.mem_cons_of_mem _ (ih.2 ⟨i, ln, by simpa using hget, by omega, hmt⟩)

theorem mem_parse_headings {lines : List Line} {h : Heading} :
    h ∈ parse_headings lines ↔
      ∃ ln, lines[h.pos]? = some ln ∧ matchHeading ln = some (h.level, h.title) := by
  rw [parse_headings, mem_parse_from]
  constructor
  · rintro ⟨i, ln, hget, hpos, hmt⟩
    exact ⟨ln, by simpa [hpos] using hget, hmt⟩
  · rintro ⟨ln, hget, hmt⟩
    exact ⟨h.pos, ln, by simpa using hget, by omega, hmt⟩

theorem find?_min_pos {p : Heading → Bool} :
    ∀ {hs : List Heading}, hs.Pairwise (fun a b => a.pos < b.pos) →
      ∀ {h : Heading}, hs.find? p = some h →
        h ∈ hs ∧ p h = true ∧ ∀ h2 ∈ hs, p h2 = true → h.pos ≤ h2.pos := by
  intro hs
  induction hs with
  | nil => intro _ h hf; simp [List.find?] at hf
  | cons a l ih =>
    intro hsort h hf
    rcases List.pairwise_cons.1 hsort with ⟨ha, hl⟩
    by_cases hpa : p a
    · rw [List.find?_cons_of_pos _ hpa] at hf
      injection hf with hf
      subst hf
      refine ⟨List.mem_cons_self _ _, hpa, ?_⟩
      intro h2 hmem _
      rcases List.mem_cons.1 hmem with rfl | hmem
      · exact Nat.le_refl _
      · exact Nat.le_of_lt (ha h2 hmem)
    · rw [List.find?_cons_of_neg _ hpa] at hf
      rcases ih hl hf with ⟨hmem, hph, hmin⟩
      refine ⟨List.mem_cons_of_mem _ hmem, hph, ?_⟩
      intro h2 hmem2 hp2
      rcases List.mem_cons.1 hmem2 with rfl | hmem2
      · exact absurd hp2 (by simpa using hpa)
      · exact hmin h2 hmem2 hp2

theorem find?_of_min {p : Heading → Bool} :
    ∀ {hs : List Heading}, hs.Pairwise (fun a b => a.pos < b.pos) →
      ∀ {h : Heading}, h ∈ hs → p h = true →
        (∀ h2 ∈ hs, p h2 = true → h.pos ≤ h2.pos) → hs.find? p = some h := by
  intro hs
  induction hs with
  | nil => intro _ h hmem; simp at hmem
  | cons a l ih =>
    intro hsort h hmem hp hmin
    rcases List.pairwise_cons.1 hsort with ⟨ha, hl⟩
    by_cases hpa : p a
    · rw [List.find?_cons_of_pos _ hpa]
      rcases List.mem_cons.1 hmem with rfl | hmem2
      · rfl
      · have h1 : h.pos ≤ a.pos := hmin a (List.mem_cons_self _ _) hpa
        have h2 : a.pos < h.pos := ha h hmem2
        omega
    · rw [List.find?_cons_of_neg _ hpa]
      rcases List.mem_cons.1 hmem with rfl | hmem2
      · exact absurd hp (by simpa using hpa)
      · exact ih hl hmem2 hp fun h2 hm2 hp2 => hmin h2 (List.mem_cons_of_mem _ hm2) hp2

theorem hashCount_le_length (l : Line) : hashCount l ≤ l.length := by
  induction l with
  | nil => simp [hashCount]
  | cons c cs ih =>
    by_cases h : c = '#'
    · simp only [hashCount, if_pos h, List.length_cons]
      omega
    · simp only [hashCount, if_neg h, List.length_cons]
      omega

theorem hashCount_eq_zero_iff (l : Line) : hashCount l = 0 ↔ l.head? ≠ some '#' := by
  cases l with
  | nil => simp [hashCount]
  | cons c cs =>
    by_cases h : c = '#' <;> simp [hashCount, h]

theorem hashCount_all (l : Line) (h : hashCount l = l.length) :
    l = List.replicate l.length '#' := by
  induction l with
  | nil => rfl
  | cons c cs ih =>
    by_cases hc : c = '#'
    · subst hc
      have hc1 : hashCount ('#' :: cs) = hashCount cs + 1 := by simp [hashCount]
      rw [hc1, List.length_cons] at h
      have h' : hashCount cs = cs.length := by omega
      simpa [List.replicate_succ] using ih h'
    · exfalso
      have hc0 : hashCount (c :: cs) = 0 := by simp [hashCount, hc]
      rw [hc0, List.length_cons] at h
      omega

theorem drop_replicate (n m : Nat) (c : Char) :
    (List.replicate m c).drop n = List.replicate (m - n) c := by
  induction n generalizing m with
  | zero => simp
  | succ k ih =>
    cases m with
    | zero => simp
    | succ m' =>
      rw [List.replicate_succ, List.drop_succ_cons, ih m']
      congr 1
      omega

theorem drop_ne_nil_of_lt {l : Line} {n : Nat} (h : n < l.length) : l.drop n ≠ [] := by
  intro contra
  have := congrArg List.length contra
  simp [List.length_drop] at this
  omega

theorem matchHeading_eq_amendedParse (s : Line) : matchHeading s = amendedParse s := by
  have hle := hashCount_le_length s
  unfold matchHeading amendedParse
  rcases Nat.eq_zero_or_pos (hashCount s) with h0 | hpos
  · rw [h0]
    simp [tryHash]
  · by_cases h6 : hashCount s ≤ 6
    · rw [Nat.min_eq_left h6]
      by_cases hlt : hashCount s < s.length
      · obtain ⟨j, hj⟩ : ∃ j, hashCount s = j + 1 := ⟨hashCount s - 1, by omega⟩
        rw [hj]
        simp only [tryHash]
        rw [if_pos (by rw [← hj]; exact drop_ne_nil_of_lt hlt)]
        rw [if_neg (by omega), if_neg (by omega)]
      · have hlen : hashCount s = s.length := by omega
        have hrep := hashCount_all s hlen
        obtain ⟨j, hj⟩ : ∃ j, hashCount s = j + 1 := ⟨hashCount s - 1, by omega⟩
        rw [hj]
        simp only [tryHash]
        rw [if_neg (by simp only [not_not]; rw [← hj, hlen]; simp)]
        cases j with
        | zero =>
          simp only [tryHash]
          rw [if_pos (by omega)]
        | succ j2 =>
          simp only [tryHash]
          rw [if_pos (drop_ne_nil_of_lt (by omega))]
          rw [if_neg (by omega), if_pos ⟨by omega, by omega⟩]
          have hd : s.drop (j2 + 1) = ['#'] := by
            conv_lhs => rw [hrep]
            rw [drop_replicate]
            have hone : s.length - (j2 + 1) = 1 := by omega
            rw [hone]
            rfl
          rw [hd]
          have hstrip : pyStrip ['#'] = ['#'] := by decide
          rw [hstrip]
          simp [hj]
    · have h6' : 6 < hashCount s := by omega
      rw [Nat.min_eq_right (by omega)]
      have hlt : 6 < s.length := by omega
      show tryHash s (5 + 1) = _
      simp only [tryHash]
      rw [if_pos (drop_ne_nil_of_lt (by omega))]
      rw [if_neg (by omega), if_neg (by omega)]

theorem matchHeading_isSome_iff (l : Line) :
    (matchHeading l).isSome = true ↔ (l.head? = some '#' ∧ 2 ≤ l.length) := by
  rw [matchHeading_eq_amendedParse]
  have hz := hashCount_eq_zero_iff l
  have hiff : ¬(hashCount l = 0 ∨ l.length < 2) ↔ (l.head? = some '#' ∧ 2 ≤ l.length) := by
    rw [not_or]
    constructor
    · rintro ⟨ha, hb⟩
      refine ⟨?_, by omega⟩
      by_contra hh
      exact ha (hz.2 hh)
    · rintro ⟨ha, hb⟩
      exact ⟨fun h0 => (hz.1 h0) ha, by omega⟩
  unfold amendedParse
  split_ifs with h1 h2
  · simp only [Option.isSome_none, Bool.false_eq_true, false_iff]
    intro hc
    exact (hiff.2 hc) h1
  · simp only [Option.isSome_some, true_iff]
    exact hiff.1 h1
  · simp only [Option.isSome_some, true_iff]
    exact hiff.1 h1

theorem pos_inj_of_sorted :
    ∀ {hs : List Heading}, hs.Pairwise (fun a b => a.pos < b.pos) →
      ∀ a ∈ hs, ∀ b ∈ hs, a.pos = b.pos → a = b := by
  intro hs
  induction hs with
  | nil => simp
  | cons x xs ih =>
    intro hsort a ha b hb heq
    rcases List.pairwise_cons.1 hsort with ⟨hx, hxs⟩
    rcases List.mem_cons.1 ha with rfl | ha2
    · rcases List.mem_cons.1 hb with rfl | hb2
      · rfl
      · exact absurd heq (by have := hx b hb2; omega)
    · rcases List.mem_cons.1 hb with rfl | hb2
      · exact absurd heq (by have := hx a ha2; omega)
      · exact ih hxs a ha2 b hb2 heq

theorem matchHeading_level {l : Line} {lv : Nat} {t : Line}
    (h : matchHeading l = some (lv, t)) : 1 ≤ lv ∧ lv ≤ 6 := by
  have key : ∀ j, tryHash l j = some (lv, t) → 1 ≤ lv ∧ lv ≤ j := by
    intro j
    induction j with
    | zero => simp [tryHash]
    | succ n ih =>
      intro hh
      simp only [tryHash] at hh
      split at hh
      · injection hh with hh
        simp at hh
        omega
      · have := ih hh
        omega
  have h1 := key (min (hashCount l) 6) h
  have h2 : min (hashCount l) 6 ≤ 6 := Nat.min_le_right _ _
  omega

/-- Counterexample to C1 as stated: the line made of two hashes alone is not
of the form one-to-six hashes, whitespace, text, so the claim allows it no
entry, yet `parse_headings` emits the entry `(0, 1, hash)` for it (the regex
backtracks and captures the second hash as the title text). -/
theorem C1_counterexample :
    parse_headings [str "##"] = [⟨0, 1, str "#"⟩] ∧ claimATX (str "##") = false := by
  decide

/-- C1 (amended): `parse_headings` returns one entry per line that starts
with a hash and has at least two characters, with positions strictly
increasing, levels in 1..6, at most one entry per position, and each entry's
level and title given by the regex closed form `amendedParse` (level
`min(hashes, 6)` and trimmed remainder, except that an all-hash line of two
to six hashes yields level one less and a single-hash title). -/
theorem C1_parse_headings (lines : List Line) :
    (parse_headings lines).Pairwise (fun a b => a.pos < b.pos) ∧
    (∀ h ∈ parse_headings lines, 1 ≤ h.level ∧ h.level ≤ 6) ∧
    (∀ h ∈ parse_headings lines, ∀ h2 ∈ parse_headings lines, h.pos = h2.pos → h = h2) ∧
    (∀ i ln, lines[i]? = some ln →
      (((∃ h ∈ parse_headings lines, h.pos = i) ↔ (ln.head? = some '#' ∧ 2 ≤ ln.length)) ∧
       ∀ h ∈ parse_headings lines, h.pos = i → some (h.level, h.title) = amendedParse ln)) := by
  refine ⟨parse_headings_sorted lines, ?_, ?_, ?_⟩
  · intro h hmem
    rcases mem_parse_headings.1 hmem with ⟨ln, _, hmt⟩
    exact matchHeading_level hmt
  · exact pos_inj_of_sorted (parse_headings_sorted lines)
  · intro i ln hget
    constructor
    · constructor
      · rintro ⟨h, hmem, rfl⟩
        rcases mem_parse_headings.1 hmem with ⟨ln2, hget2, hmt⟩
        rw [hget] at hget2
        injection hget2 with hget2
        subst hget2
        have : (matchHeading ln).isSome = true := by rw [hmt]; rfl
        exact (matchHeading_isSome_iff ln).1 this
      · intro hq
        have hsome : (matchHeading ln).isSome = true := (matchHeading_isSome_iff ln).2 hq
        rcases Option.isSome_iff_exists.1 hsome with ⟨⟨lv, t⟩, hm⟩
        refine ⟨⟨i, lv, t⟩, mem_parse_headings.2 ⟨ln, by simpa using hget, by simpa using hm⟩, rfl⟩
    · intro h hmem hpos
      rcases mem_parse_headings.1 hmem with ⟨ln2, hget2, hmt⟩
      rw [hpos, hget] at hget2
      injection hget2 with hget2
      subst hget2
      rw [← matchHeading_eq_amendedParse, hmt]

/-- Witness for C1: in a concrete two-line document the first line qualifies
and the theorem produces its entry. -/
theorem C1_parse_headings_witness :
    (str "## T").head? = some '#' ∧ 2 ≤ (str "## T").length ∧
    (∃ h ∈ parse_headings [str "## T", str "x"], h.pos = 0) := by
  refine ⟨by decide, by decide, ?_⟩
  exact ((C1_parse_headings [str "## T", str "x"]).2.2.2 0 (str "## T")
    (by decide)).1.2 ⟨by decide, by decide⟩

/-- C2: when some heading title contains the query as a case-insensitive
substring, `get_section` resolves the first such heading (position `P`,
level `L`) to the range from `P + 1` to the position of the first following
heading of level at most `L`, or to the document length when there is no
such heading. -/
theorem C2_get_section_range (lines : List Line) (q : Line) (h : Heading)
    (hmem : h ∈ parse_headings lines) (hq : titleMatch q h = true)
    (hfirst : ∀ h2 ∈ parse_headings lines, titleMatch q h2 = true → h.pos ≤ h2.pos) :
    ∃ e, get_sectionRange lines q = some (h.pos + 1, e) ∧
      ((∃ h2 ∈ parse_headings lines, h2.pos = e ∧ h.pos < h2.pos ∧ h2.level ≤ h.level ∧
          ∀ h3 ∈ parse_headings lines, h.pos < h3.pos → h3.pos < e → h.level < h3.level) ∨
       (e = lines.length ∧ ∀ h3 ∈ parse_headings lines, h.pos < h3.pos → h.level < h3.level)) := by
  have hsort := parse_headings_sorted lines
  have hf : (parse_headings lines).find? (titleMatch q) = some h :=
    find?_of_min hsort hmem hq hfirst
  rcases hb : (parse_headings lines).find?
      (fun h2 => decide (h.pos < h2.pos ∧ h2.level ≤ h.level)) with _ | h2
  · refine ⟨lines.length, ?_, Or.inr ⟨rfl, ?_⟩⟩
    · simp only [get_sectionRange]
      rw [hf]
      dsimp only
      rw [hb]
    · intro h3 hm3 hlt
      have hno := List.find?_eq_none.1 hb h3 hm3
      simp at hno
      exact hno hlt
  · obtain ⟨hmem2, hp2, hmin2⟩ := find?_min_pos hsort hb
    simp only [decide_eq_true_eq] at hp2
    refine ⟨h2.pos, ?_, Or.inl ⟨h2, hmem2, rfl, hp2.1, hp2.2, ?_⟩⟩
    · simp only [get_sectionRange]
      rw [hf]
      dsimp only
      rw [hb]
    · intro h3 hm3 hlt3 hlt3'
      by_contra hcon
      push_neg at hcon
      have := hmin2 h3 hm3 (by simp only [decide_eq_true_eq]; exact ⟨hlt3, hcon⟩)
      omega

/-- Witness for C2 on a concrete document: the anchor is the first matching
heading and the range starts one line after it. -/
theorem C2_get_section_range_witness :
    (⟨0, 1, str "A"⟩ : Heading) ∈
        parse_headings [str "# A", str "x", str "## B", str "y", str "# C"] ∧
    titleMatch (str "a") ⟨0, 1, str "A"⟩ = true ∧
    ∃ e, get_sectionRange [str "# A", str "x", str "## B", str "y", str "# C"] (str "a") =
      some (0 + 1, e) := by
  refine ⟨by decide, by decide, ?_⟩
  obtain ⟨e, he, _⟩ := C2_get_section_range
    [str "# A", str "x", str "## B", str "y", str "# C"] (str "a") ⟨0, 1, str "A"⟩
    (by decide) (by decide) (by decide)
  exact ⟨e, he⟩

/-- C5: a resolved section never contains a line that is a heading of level
less than or equal to the anchor heading's level: every heading with
position inside the returned range is strictly deeper than the anchor. -/
theorem C5_no_shallow_heading_inside (lines : List Line) (q : Line) (h : Heading)
    (hanchor : (parse_headings lines).find? (titleMatch q) = some h)
    (s e : Nat) (hr : get_sectionRange lines q = some (s, e))
    (h2 : Heading) (hmem2 : h2 ∈ parse_headings lines)
    (hs : s ≤ h2.pos) (he : h2.pos < e) : h.level < h2.level := by
  have hsort := parse_headings_sorted lines
  simp only [get_sectionRange] at hr
  rw [hanchor] at hr
  dsimp only at hr
  rcases hb : (parse_headings lines).find?
      (fun hx => decide (h.pos < hx.pos ∧ hx.level ≤ h.level)) with _ | hb2
  · rw [hb] at hr
    dsimp only at hr
    injection hr with hr
    injection hr with hr1 hr2
    subst hr1
    have hno := List.find?_eq_none.1 hb h2 hmem2
    simp at hno
    exact hno (by omega)
  · rw [hb] at hr
    dsimp only at hr
    injection hr with hr
    injection hr with hr1 hr2
    subst hr1
    subst hr2
    obtain ⟨_, hp2, hmin2⟩ := find?_min_pos hsort hb
    by_contra hcon
    push_neg at hcon
    have := hmin2 h2 hmem2 (by simp only [decide_eq_true_eq]; exact ⟨by omega, hcon⟩)
    omega

/-- Witness for C5: in the concrete document the level-2 heading inside the
resolved section is strictly deeper than the level-1 anchor. -/
theorem C5_no_shallow_heading_inside_witness :
    (parse_headings [str "# A", str "x", str "## B", str "y", str "# C"]).find?
        (titleMatch (str "a")) = some ⟨0, 1, str "A"⟩ ∧
    get_sectionRange [str "# A", str "x", str "## B", str "y", str "# C"] (str "a") =
      some (1, 4) ∧
    (⟨2, 2, str "B"⟩ : Heading) ∈
        parse_headings [str "# A", str "x", str "## B", str "y", str "# C"] ∧
    (1 : Nat) < 2 :=
  ⟨by decide, by decide, by decide,
    C5_no_shallow_heading_inside [str "# A", str "x", str "## B", str "y", str "# C"]
      (str "a") ⟨0, 1, str "A"⟩ (by decide) 1 4 (by decide) ⟨2, 2, str "B"⟩
      (by decide) (by decide) (by decide)⟩

theorem scanPair_acc (p q : Heading → Bool) :
    ∀ (hs : List Heading) (a b : Option Nat),
      scanPair p q hs (a, b) =
        ((match a with
          | some x => some x
          | none => (hs.find? p).map Heading.pos),
         (match b with
          | some x => some x
          | none => (hs.find? q).map Heading.pos)) := by
  intro hs
  induction hs with
  | nil =>
    intro a b
    cases a <;> cases b <;> simp [scanPair]
  | cons h rest ih =>
    intro a b
    simp only [scanPair]
    rw [ih]
    cases a <;> cases b <;> by_cases hp : p h <;> by_cases hq2 : q h <;>
      simp [hp, hq2, List.find?_cons]

theorem find?_map_pos_iff_isFirst (lines : List Line) (p : Heading → Bool) (x : Nat) :
    ((parse_headings lines).find? p).map Heading.pos = some x ↔ IsFirstHeading lines p x := by
  have hsort := parse_headings_sorted lines
  constructor
  · intro hf
    rcases hm : (parse_headings lines).find? p with _ | h
    · rw [hm] at hf
      simp at hf
    · rw [hm] at hf
      simp at hf
      obtain ⟨hmem, hp, hmin⟩ := find?_min_pos hsort hm
      exact ⟨h, hmem, hf, hp, by simpa [hf] using hmin⟩
  · rintro ⟨h, hmem, rfl, hp, hmin⟩
    rw [find?_of_min hsort hmem hp hmin]
    rfl

/-- Counterexample to C3 as stated: in this document the start heading (the
level-2 dataset heading) is at position 1 and a heading satisfying the end
predicate exists strictly after it at position 2, yet the resolution fails
with end_missing, because the code takes the globally first end-predicate
match (position 0) and only checks that it lies after the start. -/
theorem C3_counterexample :
    find_range [str "### Tabla clientes", str "## Dataset de referencia",
        str "### Tabla clientes"] dsPred tablaPred .fail = .error .end_missing ∧
    IsFirstHeading [str "### Tabla clientes", str "## Dataset de referencia",
        str "### Tabla clientes"] dsPred 1 ∧
    firstAfter [str "### Tabla clientes", str "## Dataset de referencia",
        str "### Tabla clientes"] 1 tablaPred = some 2 :=
  ⟨rfl, by decide, by decide⟩

/-- C3 (amended): `find_range` takes as start the position of the first
heading in document order satisfying the start predicate, failing with
start_missing when none exists; the end is the position of the first heading
in the whole document (scanning from the beginning, not from the start)
satisfying the end predicate, and it is accepted only when it lies strictly
after the start, the end otherwise counting as missing. -/
theorem C3_find_range (lines : List Line) (sp ep : Heading → Bool) :
    (find_range lines sp ep .fail = .error .start_missing ↔
      ∀ h ∈ parse_headings lines, sp h = false) ∧
    (∀ s e, find_range lines sp ep .fail = .ok (s, e) ↔
      IsFirstHeading lines sp s ∧ IsFirstHeading lines ep e ∧ s < e) ∧
    (find_range lines sp ep .fail = .error .end_missing ↔
      ∃ s, IsFirstHeading lines sp s ∧
        ((∀ h ∈ parse_headings lines, ep h = false) ∨
         ∃ e, IsFirstHeading lines ep e ∧ e ≤ s)) := by
  have hsort := parse_headings_sorted lines
  simp only [find_range]
  rw [scanPair_acc]
  rcases hsp : (parse_headings lines).find? sp with _ | hS
  · simp only [Option.map_none']
    refine ⟨?_, ?_, ?_⟩
    · simp only [true_iff]
      intro h hmem
      have := List.find?_eq_none.1 hsp h hmem
      simpa using this
    · intro s e
      constructor
      · intro hcon
        simp at hcon
      · rintro ⟨⟨h, hmem, rfl, hp, _⟩, _, _⟩
        have := List.find?_eq_none.1 hsp h hmem
        exact absurd hp (by simpa using this)
    · constructor
      · intro hcon
        simp at hcon
      · rintro ⟨s, ⟨h, hmem, rfl, hp, _⟩, _⟩
        have := List.find?_eq_none.1 hsp h hmem
        exact absurd hp (by simpa using this)
  · have hSfirst : IsFirstHeading lines sp hS.pos :=
      (find?_map_pos_iff_isFirst lines sp hS.pos).1 (by rw [hsp]; rfl)
    have hSp := (find?_min_pos hsort hsp).2.1
    have hSmem := (find?_min_pos hsort hsp).1
    rcases hep : (parse_headings lines).find? ep with _ | hE
    · simp only [Option.map_none', Option.map_some']
      have hnoep : ∀ h ∈ parse_headings lines, ep h = false := by
        intro h hmem
        have := List.find?_eq_none.1 hep h hmem
        simpa using this
      refine ⟨?_, ?_, ?_⟩
      · constructor
        · intro hcon
          simp at hcon
        · intro hall
          exact absurd hSp (by simp [hall hS hSmem])
      · intro s e
        constructor
        · intro hcon
          simp at hcon
        · rintro ⟨_, ⟨h, hmem, rfl, hp, _⟩, _⟩
          exact absurd hp (by simp [hnoep h hmem])
      · simp only [true_iff]
        exact ⟨hS.pos, hSfirst, Or.inl hnoep⟩
    · have hEfirst : IsFirstHeading lines ep hE.pos :=
        (find?_map_pos_iff_isFirst lines ep hE.pos).1 (by rw [hep]; rfl)
      have hEp := (find?_min_pos hsort hep).2.1
      have hEmem := (find?_min_pos hsort hep).1
      have huniqS : ∀ s, IsFirstHeading lines sp s → s = hS.pos := by
        intro s hfs
        have hh := (find?_map_pos_iff_isFirst lines sp s).2 hfs
        rw [hsp] at hh
        simp at hh
        omega
      have huniqE : ∀ e, IsFirstHeading lines ep e → e = hE.pos := by
        intro e hfe
        have hh := (find?_map_pos_iff_isFirst lines ep e).2 hfe
        rw [hep] at hh
        simp at hh
        omega
      simp only [Option.map_some']
      by_cases hle : hE.pos ≤ hS.pos
      · rw [if_pos hle]
        refine ⟨?_, ?_, ?_⟩
        · constructor
          · intro hcon
            simp at hcon
          · intro hall
            exact absurd hSp (by simp [hall hS hSmem])
        · intro s e
          constructor
          · intro hcon
            simp at hcon
          · rintro ⟨hfs, hfe, hlt⟩
            rw [huniqS s hfs, huniqE e hfe] at hlt
            omega
        · simp only [true_iff]
          exact ⟨hS.pos, hSfirst, Or.inr ⟨hE.pos, hEfirst, hle⟩⟩
      · rw [if_neg hle]
        refine ⟨?_, ?_, ?_⟩
        · constructor
          · intro hcon
            simp at hcon
          · intro hall
            exact absurd hSp (by simp [hall hS hSmem])
        · intro s e
          constructor
          · intro hok
            injection hok with hok
            injection hok with h1 h2
            subst h1
            subst h2
            exact ⟨hSfirst, hEfirst, by omega⟩
          · rintro ⟨hfs, hfe, _⟩
            rw [huniqS s hfs, huniqE e hfe]
        · constructor
          · intro hcon
            simp at hcon
          · rintro ⟨s, hfs, hbad | ⟨e, hfe, hlee⟩⟩
            · exact absurd hEp (by simp [hbad hE hEmem])
            · rw [huniqS s hfs, huniqE e hfe] at hlee
              omega

/-- Witness for C3 (amended): the two dataset predicates resolve on a
concrete document to the ok range. -/
theorem C3_find_range_witness :
    IsFirstHeading [str "## Dataset de referencia", str "x", str "### Tabla clientes"]
      dsPred 0 ∧
    IsFirstHeading [str "## Dataset de referencia", str "x", str "### Tabla clientes"]
      tablaPred 2 ∧
    find_range [str "## Dataset de referencia", str "x", str "### Tabla clientes"]
      dsPred tablaPred .fail = .ok (0, 2) := by
  refine ⟨by decide, by decide, ?_⟩
  exact ((C3_find_range [str "## Dataset de referencia", str "x", str "### Tabla clientes"]
    dsPred tablaPred).2.1 0 2).2 ⟨by decide, by decide, by omega⟩

/-- The resumen branch of `Menu.dataset` is the fail policy of
`find_range` instantiated at its two predicates. -/
theorem dataset_resumen_eq_find_range (lines : List Line) :
    dataset_resumen lines = find_range lines dsPred tablaPred .fail := by
  simp only [dataset_resumen, find_range]
  rcases hsc : scanPair dsPred tablaPred (parse_headings lines) (none, none) with ⟨_ | d, _ | t⟩ <;>
    rfl

/-- The detalle branch of `Menu.dataset` is the to_end policy of
`find_range` instantiated at its two predicates. -/
theorem dataset_detalle_eq_find_range (lines : List Line) :
    dataset_detalle lines = find_range lines tablaPred progPred .to_end := by
  simp only [dataset_detalle, find_range]

/-- C4: on any input where a start heading resolves at position `s` but no
end-predicate heading lies strictly after it, the fail policy returns
end_missing while the to_end policy returns a range ending at the document
length; the two `Menu.dataset` branches realize exactly the two policies. -/
theorem C4_end_fallback (lines : List Line) (sp ep : Heading → Bool) (s : Nat)
    (hstart : IsFirstHeading lines sp s)
    (hnoend : ∀ h ∈ parse_headings lines, ep h = true → h.pos ≤ s) :
    find_range lines sp ep .fail = .error .end_missing ∧
    find_range lines sp ep .to_end = .ok (s, lines.length) ∧
    dataset_resumen lines = find_range lines dsPred tablaPred .fail ∧
    dataset_detalle lines = find_range lines tablaPred progPred .to_end := by
  have hsort := parse_headings_sorted lines
  have hf : ((parse_headings lines).find? sp).map Heading.pos = some s :=
    (find?_map_pos_iff_isFirst lines sp s).2 hstart
  refine ⟨?_, ?_, dataset_resumen_eq_find_range lines, dataset_detalle_eq_find_range lines⟩
  all_goals
    rcases hsp : (parse_headings lines).find? sp with _ | hS
  · rw [hsp] at hf
    simp at hf
  · rw [hsp] at hf
    simp at hf
    simp only [find_range]
    rw [scanPair_acc, hsp]
    simp only [Option.map_some']
    rcases hep : (parse_headings lines).find? ep with _ | hE
    · simp only [Option.map_none']
    · simp only [Option.map_some']
      have hle : hE.pos ≤ s :=
        hnoend hE (find?_min_pos hsort hep).1 (find?_min_pos hsort hep).2.1
      rw [if_pos (by omega)]
  · rw [hsp] at hf
    simp at hf
  · rw [hsp] at hf
    simp at hf
    simp only [find_range]
    rw [scanPair_acc, hsp]
    simp only [Option.map_some']
    rcases hep : (parse_headings lines).find? ep with _ | hE
    · simp only [Option.map_none']
      rw [hf]
    · simp only [Option.map_some']
      have hle : hE.pos ≤ s :=
        hnoend hE (find?_min_pos hsort hep).1 (find?_min_pos hsort hep).2.1
      rw [if_neg (by omega), hf]

/-- Witness for C4 on a concrete document with a start heading and no end
heading at all: the two policies produce the two described results. -/
theorem C4_end_fallback_witness :
    IsFirstHeading [str "## Dataset de referencia", str "x"] dsPred 0 ∧
    (∀ h ∈ parse_headings [str "## Dataset de referencia", str "x"],
        tablaPred h = true → h.pos ≤ 0) ∧
    find_range [str "## Dataset de referencia", str "x"] dsPred tablaPred .fail =
      .error .end_missing ∧
    find_range [str "## Dataset de referencia", str "x"] dsPred tablaPred .to_end =
      .ok (0, 2) := by
  have hc := C4_end_fallback [str "## Dataset de referencia", str "x"] dsPred tablaPred 0
    (by decide) (by decide)
  exact ⟨by decide, by decide, hc.1, hc.2.1⟩

/-- Counterexample to C6 as stated: over the outer range `[0, 4)` of this
document only one heading (position 2) lies strictly within the range, yet
`partition_subsections` returns two ranges, because the heading sitting
exactly at the range start (position 0) is also collected. -/
theorem C6_counterexample :
    partition_subsections [str "## A", str "x", str "### B", str "y"] 0 4 [2, 3] =
      [(0, 4), (2, 4)] ∧
    strictlyInnerHeadings [str "## A", str "x", str "### B", str "y"] 0 4 [2, 3] =
      [⟨2, 3, str "B"⟩] := by
  decide

theorem collectSubs_eq (allH : List Heading) (s e : Nat) (levels : List Nat) :
    ∀ hs, collectSubs allH s e levels hs =
      (hs.filter (fun h => decide (s ≤ h.pos ∧ h.pos < e) && levels.contains h.level)).map
        (fun h => (h.pos, subEnd allH h.pos h.level e)) := by
  intro hs
  induction hs with
  | nil => rfl
  | cons h rest ih =>
    simp only [collectSubs]
    by_cases h1 : h.pos < s ∨ e ≤ h.pos
    · rw [if_pos h1]
      have hcond : (decide (s ≤ h.pos ∧ h.pos < e) && levels.contains h.level) = false := by
        have hno : decide (s ≤ h.pos ∧ h.pos < e) = false := by
          simp only [decide_eq_false_iff_not]
          omega
        rw [hno, Bool.false_and]
      rw [List.filter_cons, hcond]
      simpa using ih
    · rw [if_neg h1]
      push_neg at h1
      by_cases h2 : levels.contains h.level
      · rw [if_pos h2]
        have hcond : (decide (s ≤ h.pos ∧ h.pos < e) && levels.contains h.level) = true := by
          simp only [Bool.and_eq_true, decide_eq_true_eq]
          exact ⟨⟨h1.1, h1.2⟩, h2⟩
        rw [List.filter_cons, hcond]
        simpa using ih
      · rw [if_neg h2]
        have hcond : (decide (s ≤ h.pos ∧ h.pos < e) && levels.contains h.level) = false := by
          have hf2 : levels.contains h.level = false := by simpa using h2
          rw [hf2, Bool.and_false]
        rw [List.filter_cons, hcond]
        simpa using ih

theorem subEnd_le (allH : List Heading) (hsort : allH.Pairwise (fun a b => a.pos < b.pos))
    (idx level e : Nat) : subEnd allH idx level e ≤ e := by
  unfold subEnd
  rcases hb : allH.find? (fun h2 => decide (idx < h2.pos ∧ h2.pos < e ∧ h2.level ≤ level))
    with _ | hb2
  · rw [hb]
  · rw [hb]
    show hb2.pos ≤ e
    have := (find?_min_pos hsort hb).2.1
    simp only [decide_eq_true_eq] at this
    omega

/-- C6 (amended): `partition_subsections` returns one range per heading of the
given levels whose position lies in the half-open outer range (including a
heading exactly at the range start), each range running from that heading to
the first heading after it, before the range end, of level at most its own,
else to the range end, and never past the range end; when no such heading
exists it returns exactly the whole outer range. -/
theorem C6_partition_subsections (lines : List Line) (s e : Nat) (levels : List Nat) :
    (innerHeadings lines s e levels = [] →
      partition_subsections lines s e levels = [(s, e)]) ∧
    (innerHeadings lines s e levels ≠ [] →
      partition_subsections lines s e levels =
        (innerHeadings lines s e levels).map
          (fun h => (h.pos, subEnd (parse_headings lines) h.pos h.level e))) ∧
    (∀ idx level,
      (subEnd (parse_headings lines) idx level e = e ∧
        ∀ h2 ∈ parse_headings lines, idx < h2.pos → h2.pos < e → ¬h2.level ≤ level) ∨
      (∃ h2 ∈ parse_headings lines, h2.pos = subEnd (parse_headings lines) idx level e ∧
        idx < h2.pos ∧ h2.pos < e ∧ h2.level ≤ level ∧
        ∀ h3 ∈ parse_headings lines, idx < h3.pos → h3.pos < h2.pos → ¬h3.level ≤ level)) ∧
    (∀ r ∈ partition_subsections lines s e levels, r.2 ≤ e) := by
  have hsort := parse_headings_sorted lines
  have hkey := collectSubs_eq (parse_headings lines) s e levels (parse_headings lines)
  refine ⟨?_, ?_, ?_, ?_⟩
  · intro hnil
    simp only [partition_subsections]
    rw [hkey]
    unfold innerHeadings at hnil
    rw [hnil]
    rfl
  · intro hne
    simp only [partition_subsections]
    rw [hkey]
    unfold innerHeadings at hne ⊢
    rcases hl : ((parse_headings lines).filter
        (fun h => decide (s ≤ h.pos ∧ h.pos < e) && levels.contains h.level)) with _ | ⟨hd, tl⟩
    · exact absurd hl hne
    · rw [hl]
      rfl
  · intro idx level
    unfold subEnd
    rcases hb : (parse_headings lines).find?
        (fun h2 => decide (idx < h2.pos ∧ h2.pos < e ∧ h2.level ≤ level)) with _ | hb2
    · rw [hb]
      left
      refine ⟨rfl, ?_⟩
      intro h2 hmem hlt1 hlt2
      have := List.find?_eq_none.1 hb h2 hmem
      simp only [Bool.not_eq_true, decide_eq_false_iff_not] at this
      intro hlev
      exact this ⟨hlt1, hlt2, hlev⟩
    · rw [hb]
      right
      obtain ⟨hmem, hp, hmin⟩ := find?_min_pos hsort hb
      simp only [decide_eq_true_eq] at hp
      refine ⟨hb2, hmem, rfl, hp.1, hp.2.1, hp.2.2, ?_⟩
      intro h3 hm3 hlt1 hlt2 hlev
      have := hmin h3 hm3 (by simp only [decide_eq_true_eq]; exact ⟨hlt1, by omega, hlev⟩)
      omega
  · intro r hr
    simp only [partition_subsections] at hr
    rw [hkey] at hr
    rcases hl : ((parse_headings lines).filter
        (fun h => decide (s ≤ h.pos ∧ h.pos < e) && levels.contains h.level)) with _ | ⟨hd, tl⟩
    · rw [hl] at hr
      simp at hr
      rw [hr]
    · rw [hl] at hr
      simp only [List.map_cons, List.isEmpty_cons, Bool.false_eq_true, if_false] at hr
      rcases List.mem_cons.1 hr with rfl | hr2
      · exact subEnd_le (parse_headings lines) hsort hd.pos hd.level e
      · rcases List.mem_map.1 hr2 with ⟨h, _, rfl⟩
        exact subEnd_le (parse_headings lines) hsort h.pos h.level e

/-- Witness for C6: on the concrete document the partition equals the map
over the headings of the range, start included. -/
theorem C6_partition_subsections_witness :
    innerHeadings [str "## A", str "x", str "### B", str "y"] 0 4 [2, 3] ≠ [] ∧
    partition_subsections [str "## A", str "x", str "### B", str "y"] 0 4 [2, 3] =
      (innerHeadings [str "## A", str "x", str "### B", str "y"] 0 4 [2, 3]).map
        (fun h => (h.pos,
          subEnd (parse_headings [str "## A", str "x", str "### B", str "y"]) h.pos h.level 4)) :=
  ⟨by decide,
    (C6_partition_subsections [str "## A", str "x", str "### B", str "y"] 0 4 [2, 3]).2.1
      (by decide)⟩

theorem splitOnP_prepend (p : Line → Bool) :
    ∀ (buf l : List Line), (∀ x ∈ buf, p x = false) →
      (buf ++ l).splitOnP p = (l.splitOnP p).modifyHead (buf ++ ·) := by
  intro buf
  induction buf with
  | nil =>
    intro l _
    rcases hsp : l.splitOnP p with _ | ⟨hd, tl⟩
    · exact absurd hsp (List.splitOnP_ne_nil _ _)
    · simp [hsp]
  | cons b bs ih =>
    intro l hbf
    have hb : p b = false := hbf b (List.mem_cons_self _ _)
    rw [List.cons_append, List.splitOnP_cons, if_neg (by simp [hb])]
    rw [ih l (fun x hx => hbf x (List.mem_cons_of_mem _ hx))]
    rw [List.modifyHead_modifyHead]
    rcases hsp : l.splitOnP p with _ | ⟨hd, tl⟩
    · exact absurd hsp (List.splitOnP_ne_nil _ _)
    · simp [hsp]

theorem mem_splitOnP_not (p : Line → Bool) :
    ∀ (l : List Line), ∀ r ∈ l.splitOnP p, ∀ x ∈ r, p x = false := by
  intro l
  induction l with
  | nil =>
    intro r hr x hx
    simp only [List.splitOnP_nil, List.mem_singleton] at hr
    subst hr
    simp at hx
  | cons a as ih =>
    intro r hr x hx
    rw [List.splitOnP_cons] at hr
    by_cases hpa : p a
    · rw [if_pos hpa] at hr
      rcases List.mem_cons.1 hr with rfl | hr2
      · simp at hx
      · exact ih r hr2 x hx
    · rw [if_neg hpa] at hr
      rcases hsp : as.splitOnP p with _ | ⟨hd, tl⟩
      · exact absurd hsp (List.splitOnP_ne_nil _ _)
      · rw [hsp] at hr
        simp only [List.modifyHead_cons] at hr
        rcases List.mem_cons.1 hr with rfl | hr2
        · rcases List.mem_cons.1 hx with rfl | hx2
          · simpa using hpa
          · exact ih hd (by rw [hsp]; exact List.mem_cons_self _ _) x hx2
        · exact ih r (by rw [hsp]; exact List.mem_cons_of_mem _ hr2) x hx

theorem pyStrip_eq_nil_iff (l : Line) : pyStrip l = [] ↔ ∀ c ∈ l, isWs c = true := by
  unfold pyStrip
  rw [List.reverse_eq_nil_iff, List.dropWhile_eq_nil_iff]
  constructor
  · intro h c hc
    have hsplit : c ∈ l.takeWhile isWs ++ l.dropWhile isWs := by
      rw [List.takeWhile_append_dropWhile]
      exact hc
    rcases List.mem_append.1 hsplit with h1 | h2
    · exact List.mem_takeWhile_imp h1
    · exact h c (List.mem_reverse.2 h2)
  · intro h c hc
    have hmem : c ∈ l.dropWhile isWs := List.mem_reverse.1 hc
    have hin : c ∈ l.takeWhile isWs ++ l.dropWhile isWs := List.mem_append.2 (Or.inr hmem)
    rw [List.takeWhile_append_dropWhile] at hin
    exact h c hin

theorem mem_pyStrip {c : Char} (hcw : isWs c = false) :
    ∀ {m : Line}, c ∈ m → c ∈ pyStrip m := by
  have step : ∀ x : Line, c ∈ x → c ∈ x.dropWhile isWs := by
    intro x hx
    have hsplit : c ∈ x.takeWhile isWs ++ x.dropWhile isWs := by
      rw [List.takeWhile_append_dropWhile]
      exact hx
    rcases List.mem_append.1 hsplit with h1 | h2
    · exact absurd (List.mem_takeWhile_imp h1) (by simp [hcw])
    · exact h2
  intro m hm
  unfold pyStrip
  exact List.mem_reverse.2 (step _ (List.mem_reverse.2 (step _ hm)))

theorem mem_joinNL : ∀ {r : List Line} {x : Line}, x ∈ r → ∀ {c : Char}, c ∈ x → c ∈ joinNL r := by
  intro r
  induction r with
  | nil =>
    intro x hx
    simp at hx
  | cons a as ih =>
    intro x hx c hc
    rcases as with _ | ⟨b, bs⟩
    · simp only [List.mem_singleton] at hx
      subst hx
      exact hc
    · rcases List.mem_cons.1 hx with rfl | hx2
      · simp only [joinNL]
        exact List.mem_append.2 (Or.inl hc)
      · simp only [joinNL]
        exact List.mem_append.2 (Or.inr (List.mem_cons_of_mem _ (ih hx2 hc)))

theorem glue_has_content {run : List Line} (hne : run ≠ [])
    (hnb : ∀ x ∈ run, Blank x = false) : ∃ c ∈ glue run, isWs c = false := by
  rcases run with _ | ⟨x, rest⟩
  · exact absurd rfl hne
  · have hbx : Blank x = false := hnb x (List.mem_cons_self _ _)
    unfold Blank at hbx
    rw [decide_eq_false_iff_not] at hbx
    have hnall : ¬∀ c ∈ x, isWs c = true := fun hall => hbx ((pyStrip_eq_nil_iff x).2 hall)
    push_neg at hnall
    rcases hnall with ⟨c, hcx, hcw⟩
    have hcw2 : isWs c = false := by simpa using hcw
    refine ⟨c, ?_, hcw2⟩
    exact mem_pyStrip hcw2 (mem_joinNL (List.mem_cons_self _ _) hcx)

theorem all_paragraphs_go_eq :
    ∀ (lines : List Line) (buf : List Line), (∀ l ∈ buf, Blank l = false) →
      all_paragraphs_go buf lines =
        (((buf ++ lines.filter (fun l => !headingSkip l)).splitOnP Blank).filter
          (fun r => !r.isEmpty)).map glue := by
  intro lines
  induction lines with
  | nil =>
    intro buf hbuf
    rw [List.filter_nil, List.append_nil,
      List.splitOnP_eq_single _ _ (by intro x hx; simp [hbuf x hx])]
    rcases buf with _ | ⟨b, bs⟩
    · rfl
    · rfl
  | cons ln rest ih =>
    intro buf hbuf
    by_cases hh : headingSkip ln
    · have hrw : all_paragraphs_go buf (ln :: rest) = all_paragraphs_go buf rest := by
        simp only [all_paragraphs_go]
        rw [if_pos hh]
      rw [hrw]
      have hfilter : (ln :: rest).filter (fun l => !headingSkip l) =
          rest.filter (fun l => !headingSkip l) := by
        rw [List.filter_cons, if_neg (by simp [hh])]
      rw [hfilter]
      exact ih buf hbuf
    · have hfilter : (ln :: rest).filter (fun l => !headingSkip l) =
          ln :: rest.filter (fun l => !headingSkip l) := by
        rw [List.filter_cons, if_pos (by simp [hh])]
      by_cases hbl : pyStrip ln = []
      · have hBl : Blank ln = true := by simp [Blank, hbl]
        have hrw : all_paragraphs_go buf (ln :: rest) =
            if buf.isEmpty then all_paragraphs_go [] rest
            else pyStrip (joinNL buf) :: all_paragraphs_go [] rest := by
          simp only [all_paragraphs_go]
          rw [if_neg (by simp [hh]), if_pos hbl]
        rw [hrw, hfilter]
        rw [splitOnP_prepend Blank buf _ hbuf, List.splitOnP_cons, if_pos hBl,
          List.modifyHead_cons, List.append_nil]
        have hIH := ih [] (by simp)
        simp only [List.nil_append] at hIH
        rw [List.filter_cons]
        rcases buf with _ | ⟨b, bs⟩
        · simp only [List.isEmpty_nil, Bool.not_true]
          rw [if_pos trivial, if_neg (by simp)]
          exact hIH
        · simp only [List.isEmpty_cons, Bool.not_false]
          rw [if_pos trivial, List.map_cons, hIH]
          rfl
      · have hBl : Blank ln = false := by simp [Blank, hbl]
        have hrw : all_paragraphs_go buf (ln :: rest) =
            all_paragraphs_go (buf ++ [ln]) rest := by
          simp only [all_paragraphs_go]
          rw [if_neg (by simp [hh]), if_neg hbl]
        rw [hrw]
        have hbuf2 : ∀ l ∈ buf ++ [ln], Blank l = false := by
          intro l hl
          rcases List.mem_append.1 hl with h1 | h2
          · exact hbuf l h1
          · simp only [List.mem_singleton] at h2
            subst h2
            exact hBl
        rw [ih (buf ++ [ln]) hbuf2, hfilter]
        have hassoc : (buf ++ [ln]) ++ rest.filter (fun l => !headingSkip l) =
            buf ++ ln :: rest.filter (fun l => !headingSkip l) := by
          simp
        rw [hassoc]

/-- Counterexample to C7 as stated: the middle line is a heading, so the
claim sees two maximal runs of non-blank non-heading lines and predicts the
two paragraphs a and b, but the code skips the heading without flushing its
buffer and merges the two runs into the single paragraph a-newline-b. -/
theorem C7_counterexample :
    all_paragraphs [str "a", str "# h", str "b"] = [str "a\nb"] ∧
    claimParagraphs [str "a", str "# h", str "b"] = [str "a", str "b"] := by
  decide

/-- C7 (amended): `all_paragraphs` first deletes heading lines (lines
starting with a hash) without breaking a run, then returns one newline-joined
trimmed entry per maximal run of non-blank remaining lines; every entry
contains a non-whitespace character (so none is empty or whitespace-only),
and a document of only heading lines and blank lines yields the empty
list. -/
theorem C7_all_paragraphs (lines : List Line) :
    all_paragraphs lines = paragraphsSpec lines ∧
    (∀ p ∈ all_paragraphs lines, ∃ c ∈ p, isWs c = false) ∧
    ((∀ l ∈ lines, headingSkip l = true ∨ pyStrip l = []) → all_paragraphs lines = []) := by
  have hmain : all_paragraphs lines = paragraphsSpec lines := by
    unfold all_paragraphs paragraphsSpec
    have := all_paragraphs_go_eq lines [] (by simp)
    simpa using this
  refine ⟨hmain, ?_, ?_⟩
  · intro p hp
    rw [hmain] at hp
    unfold paragraphsSpec at hp
    rcases List.mem_map.1 hp with ⟨run, hrun, rfl⟩
    rcases List.mem_filter.1 hrun with ⟨hrun2, hrune⟩
    have hne : run ≠ [] := by
      intro hcon
      subst hcon
      simp at hrune
    have hnb : ∀ x ∈ run, Blank x = false := mem_splitOnP_not Blank _ run hrun2
    exact glue_has_content hne hnb
  · intro hall
    rw [hmain]
    unfold paragraphsSpec
    have hblank : ∀ x ∈ lines.filter (fun l => !headingSkip l), Blank x = true := by
      intro x hx
      rcases List.mem_filter.1 hx with ⟨hxl, hxh⟩
      rcases hall x hxl with h1 | h2
      · exact absurd h1 (by simpa using hxh)
      · simp [Blank, h2]
    have hsplit : ∀ m : List Line, (∀ x ∈ m, Blank x = true) →
        ((m.splitOnP Blank).filter (fun r => !r.isEmpty)) = [] := by
      intro m
      induction m with
      | nil => intro _; rfl
      | cons a as ihm =>
        intro hm
        rw [List.splitOnP_cons, if_pos (hm a (List.mem_cons_self _ _))]
        rw [List.filter_cons, if_neg (by simp)]
        exact ihm (fun x hx => hm x (List.mem_cons_of_mem _ hx))
    rw [hsplit _ hblank]
    rfl

/-- Witness for C7: a document of one heading line and one blank line yields
no paragraphs. -/
theorem C7_all_paragraphs_witness :
    (∀ l ∈ [str "# h", str ""], headingSkip l = true ∨ pyStrip l = []) ∧
    all_paragraphs [str "# h", str ""] = [] :=
  ⟨by decide, (C7_all_paragraphs [str "# h", str ""]).2.2 (by decide)⟩

theorem extract_go_eq : ∀ (l : List Line) (b : Bool),
    extract_go b l = altJoin b (l.splitOnP fenceLine) := by
  intro l
  induction l with
  | nil =>
    intro b
    cases b <;> rfl
  | cons a as ih =>
    intro b
    rw [List.splitOnP_cons]
    by_cases hf : fenceLine a
    · rw [if_pos hf]
      have hrw : extract_go b (a :: as) = extract_go (!b) as := by
        simp only [extract_go]
        rw [if_pos hf]
      rw [hrw, ih (!b)]
      cases b <;> simp [altJoin]
    · rw [if_neg hf]
      rcases hsp : as.splitOnP fenceLine with _ | ⟨hd, tl⟩
      · exact absurd hsp (List.splitOnP_ne_nil _ _)
      · rw [List.modifyHead_cons]
        have hrw : extract_go b (a :: as) =
            if b then a :: extract_go b as else extract_go b as := by
          simp only [extract_go]
          rw [if_neg hf]
        rw [hrw, ih b, hsp]
        cases b <;> simp [altJoin]

/-- C8: `extract_code_block` newline-joins and trims exactly the lines lying
in the chunks opened by a toggling triple-backtick fence (fence lines
excluded); an unterminated final fence simply contributes its partial chunk
rather than failing, as on the concrete unterminated input. -/
theorem C8_extract_code_block (lines : List Line) :
    extract_code_block lines =
      pyStrip (joinNL (altJoin false (lines.splitOnP fenceLine))) ∧
    (∀ f rest, fenceLine f = true → (∀ l ∈ rest, fenceLine l = false) →
      extract_code_block (f :: rest) = pyStrip (joinNL rest)) ∧
    extract_code_block [str "```", str "x", str "y"] = str "x\ny" ∧
    extract_code_block [str "text", str "```", str "a", str "b", str "```", str "t2"] =
      str "a\nb" := by
  refine ⟨?_, ?_, by decide, by decide⟩
  · unfold extract_code_block
    rw [extract_go_eq]
  · intro f rest hfence hnof
    unfold extract_code_block
    rw [extract_go_eq, List.splitOnP_cons, if_pos hfence,
      List.splitOnP_eq_single _ _ (by intro x hx; simp [hnof x hx])]
    simp [altJoin]

/-- Witness for C8: the unterminated fence clause at a concrete input. -/
theorem C8_extract_code_block_witness :
    fenceLine (str "```") = true ∧
    (∀ l ∈ [str "x", str "y"], fenceLine l = false) ∧
    extract_code_block [str "```", str "x", str "y"] =
      pyStrip (joinNL [str "x", str "y"]) :=
  ⟨by decide, by decide,
    (C8_extract_code_block [str "```", str "x", str "y"]).2.1 (str "```")
      [str "x", str "y"] (by decide) (by decide)⟩

/-- Counterexample to C9 as stated: the code's only not-found value is the
empty list, and that value is also produced here although a heading does
match the query (the matching heading has an empty content range), so the
empty result is not returned exactly when no heading matches. -/
theorem C9_counterexample :
    get_section [str "# A", str "# B"] (str "A") = [] ∧
    (∃ h ∈ parse_headings [str "# A", str "# B"], titleMatch (str "A") h = true) := by
  decide

/-- C9 (amended): `get_section` returns its not-found value, the empty list,
exactly when either no heading title contains the query as a case-insensitive
substring, or the first matching heading's content range is empty (the next
heading of level at most the anchor's sits directly after the anchor line, or
the anchor is the last line); matching stays a plain case-insensitive
substring test, so a query differing from a title only by diacritics is not
found even though `_norm` identifies the two. -/
theorem C9_get_section_empty (lines : List Line) (q : Line) :
    (get_section lines q = [] ↔
      (∀ h ∈ parse_headings lines, titleMatch q h = false) ∨
      (∃ h ∈ parse_headings lines, titleMatch q h = true ∧
        (∀ h2 ∈ parse_headings lines, titleMatch q h2 = true → h.pos ≤ h2.pos) ∧
        ((∃ h2 ∈ parse_headings lines, h2.pos = h.pos + 1 ∧ h2.level ≤ h.level) ∨
          h.pos + 1 = lines.length))) ∧
    get_section [str "# Información", str "x"] (str "informacion") = [] ∧
    _norm (str "Información") = _norm (str "informacion") := by
  refine ⟨?_, by decide, by decide⟩
  have hsort := parse_headings_sorted lines
  rcases hf : (parse_headings lines).find? (titleMatch q) with _ | h
  · have hnone : ∀ h2 ∈ parse_headings lines, titleMatch q h2 = false := by
      intro h2 hm
      have := List.find?_eq_none.1 hf h2 hm
      simpa using this
    have hval : get_section lines q = [] := by
      simp only [get_section, get_sectionRange, hf]
    rw [hval]
    exact ⟨fun _ => Or.inl hnone, fun _ => rfl⟩
  · obtain ⟨hmem, hq, hmin⟩ := find?_min_pos hsort hf
    have hpos_lt : h.pos < lines.length := parse_headings_lt lines h hmem
    rcases hb : (parse_headings lines).find?
        (fun h2 => decide (h.pos < h2.pos ∧ h2.level ≤ h.level)) with _ | hb2
    · have hval : get_section lines q = pySlice lines (h.pos + 1) lines.length := by
        simp only [get_section, get_sectionRange, hf, hb]
      rw [hval]
      have hslice : pySlice lines (h.pos + 1) lines.length = [] ↔
          h.pos + 1 = lines.length := by
        unfold pySlice
        constructor
        · intro hcon
          have hlen := congrArg List.length hcon
          simp [List.length_take, List.length_drop] at hlen
          omega
        · intro heq
          rw [heq]
          simp
      rw [hslice]
      constructor
      · intro heq
        exact Or.inr ⟨h, hmem, hq, hmin, Or.inr heq⟩
      · rintro (hall | ⟨h3, hm3, hq3, hmin3, hcase⟩)
        · exact absurd hq (by simp [hall h hmem])
        · have h3eq : h3 = h := pos_inj_of_sorted hsort h3 hm3 h hmem
            (by have h1 := hmin h3 hm3 hq3; have h2 := hmin3 h hmem hq; omega)
          subst h3eq
          rcases hcase with ⟨h2, hm2, hpos2, hlev2⟩ | heq
          · have hno := List.find?_eq_none.1 hb h2 hm2
            simp at hno
            have hlt := hno (by omega)
            omega
          · exact heq
    · obtain ⟨hbmem, hbp, hbmin⟩ := find?_min_pos hsort hb
      simp only [decide_eq_true_eq] at hbp
      have hb2lt : hb2.pos < lines.length := parse_headings_lt lines hb2 hbmem
      have hval : get_section lines q = pySlice lines (h.pos + 1) hb2.pos := by
        simp only [get_section, get_sectionRange, hf, hb]
      rw [hval]
      have hslice : pySlice lines (h.pos + 1) hb2.pos = [] ↔ hb2.pos = h.pos + 1 := by
        unfold pySlice
        constructor
        · intro hcon
          have hlen := congrArg List.length hcon
          simp [List.length_take, List.length_drop] at hlen
          omega
        · intro heq
          rw [heq]
          simp
      rw [hslice]
      constructor
      · intro heq
        exact Or.inr ⟨h, hmem, hq, hmin, Or.inl ⟨hb2, hbmem, heq, hbp.2⟩⟩
      · rintro (hall | ⟨h3, hm3, hq3, hmin3, hcase⟩)
        · exact absurd hq (by simp [hall h hmem])
        · have h3eq : h3 = h := pos_inj_of_sorted hsort h3 hm3 h hmem
            (by have h1 := hmin h3 hm3 hq3; have h2 := hmin3 h hmem hq; omega)
          subst h3eq
          rcases hcase with ⟨h2, hm2, hpos2, hlev2⟩ | heq
          · have := hbmin h2 hm2 (by simp only [decide_eq_true_eq]; exact ⟨by omega, hlev2⟩)
            omega
          · omega

/-- Witness for C9: with a query matching no heading the empty list is
returned. -/
theorem C9_get_section_empty_witness :
    (∀ h ∈ parse_headings [str "# A"], titleMatch (str "b") h = false) ∧
    get_section [str "# A"] (str "b") = [] :=
  ⟨by decide, ((C9_get_section_empty [str "# A"] (str "b")).1).2 (Or.inl (by decide))⟩

theorem charNorm_eq (c : Char) (hc : isMn c = false) :
    ((nfdChar c).filter (fun d => !isMn d)).map pyLowerChar = [pyLowerChar (baseChar c)] := by
  by_cases h1 : c = 'á'
  · subst h1
    decide
  by_cases h2 : c = 'é'
  · subst h2
    decide
  by_cases h3 : c = 'í'
  · subst h3
    decide
  by_cases h4 : c = 'ó'
  · subst h4
    decide
  by_cases h5 : c = 'ú'
  · subst h5
    decide
  by_cases h6 : c = 'Á'
  · subst h6
    decide
  by_cases h7 : c = 'É'
  · subst h7
    decide
  by_cases h8 : c = 'Í'
  · subst h8
    decide
  by_cases h9 : c = 'Ó'
  · subst h9
    decide
  by_cases h10 : c = 'Ú'
  · subst h10
    decide
  by_cases h11 : c = 'ñ'
  · subst h11
    decide
  by_cases h12 : c = 'Ñ'
  · subst h12
    decide
  by_cases h13 : c = 'ü'
  · subst h13
    decide
  by_cases h14 : c = 'Ü'
  · subst h14
    decide
  have hn : nfdChar c = [c] := by
    unfold nfdChar
    rw [if_neg h1, if_neg h2, if_neg h3, if_neg h4, if_neg h5, if_neg h6, if_neg h7, if_neg h8, if_neg h9, if_neg h10, if_neg h11, if_neg h12, if_neg h13, if_neg h14]
  have hb : baseChar c = c := by
    unfold baseChar
    rw [if_neg h1, if_neg h2, if_neg h3, if_neg h4, if_neg h5, if_neg h6, if_neg h7, if_neg h8, if_neg h9, if_neg h10, if_neg h11, if_neg h12, if_neg h13, if_neg h14]
  rw [hn, hb]
  simp [hc]

theorem _norm_eq_flatMap (l : Line) :
    _norm l = l.flatMap (fun c => ((nfdChar c).filter (fun d => !isMn d)).map pyLowerChar) := by
  induction l with
  | nil => rfl
  | cons c cs ih =>
    have ih2 := ih
    simp only [_norm] at ih2 ⊢
    simp only [List.flatMap_cons, List.filter_append, List.map_append]
    rw [ih2]

theorem _norm_eq_map : ∀ (u : Line), (∀ c ∈ u, isMn c = false) →
    _norm u = u.map (fun c => pyLowerChar (baseChar c)) := by
  intro u
  induction u with
  | nil => intro _; rfl
  | cons c cs ihu =>
    intro hu
    rw [_norm_eq_flatMap]
    simp only [List.flatMap_cons, List.map_cons]
    rw [charNorm_eq c (hu c (List.mem_cons_self _ _))]
    have htail := ihu (fun x hx => hu x (List.mem_cons_of_mem _ hx))
    rw [_norm_eq_flatMap] at htail
    rw [htail]
    rfl

/-- C10: `_norm` lower-cases and strips combining diacritical marks, so any
two mark-free strings whose characters agree after dropping accents and case
normalize to the same string; in particular the accented and unaccented
spellings of the information title normalize identically. -/
theorem C10_norm_diacritics (s t : Line)
    (hs : ∀ c ∈ s, isMn c = false) (ht : ∀ c ∈ t, isMn c = false)
    (hbase : s.map (fun c => pyLowerChar (baseChar c)) =
      t.map (fun c => pyLowerChar (baseChar c))) :
    _norm s = _norm t ∧ _norm (str "Información") = _norm (str "informacion") :=
  ⟨by rw [_norm_eq_map s hs, _norm_eq_map t ht, hbase], by decide⟩

/-- Witness for C10 on a concrete pair differing only in case and
diacritics. -/
theorem C10_norm_diacritics_witness :
    (∀ c ∈ str "ÑÚ", isMn c = false) ∧ (∀ c ∈ str "nu", isMn c = false) ∧
    (str "ÑÚ").map (fun c => pyLowerChar (baseChar c)) =
      (str "nu").map (fun c => pyLowerChar (baseChar c)) ∧
    _norm (str "ÑÚ") = _norm (str "nu") :=
  ⟨by decide, by decide, by decide,
    (C10_norm_diacritics (str "ÑÚ") (str "nu") (by decide) (by decide) (by decide)).1⟩

end Aurelion